import Mathlib

/-!
Verification of the radix-256 Merkle-Patricia trie node machinery
(`trie/patricia.go`): node shapes, hashing pre-images, descend, insert
(with extension splitting), collapse, and serialization.

Bytes are modelled as `Nat` entries of a `List Nat`; Go slice values (`[]byte`)
that may be `nil` are modelled as `Option (List Nat)` where the distinction
matters (`collapse`), and as `List Nat` where only emptiness matters
(branch slots, since Go tests `len(...) > 0`).  The BLAKE2b-256 digest is
an external primitive, so every hashing definition is parametrised by an
arbitrary digest function `H : List Nat → List Nat`; the source code never
relies on any property of the digest beyond determinism.
-/

set_option maxRecDepth 100000

namespace Patricia

/-- `RADIX = 256`, the number of child slots of a branch node. -/
def RADIX : Nat := 256

/-- The `branch` struct: 256 child slots (`Path`) plus a `Value` field.
A slot is empty iff its list is empty (Go tests `len(b.Path[i]) > 0`). -/
structure Branch where
  Path : List (List Nat)
  Value : List Nat
deriving DecidableEq

/-- The `leaf` struct, doubling as extension node when `Ext = 1`. -/
structure Leaf where
  Ext : Nat
  Path : List Nat
  Value : List Nat
deriving DecidableEq

/-- A patricia node is either a branch or a leaf/extension. -/
inductive Node where
  | branch : Branch → Node
  | leaf : Leaf → Node
deriving DecidableEq

/-- Read slot `i` of a branch (`b.Path[i]`); the Go array always has 256
entries, shorter model lists behave as padded with empty slots. -/
def slot (b : Branch) (i : Nat) : List Nat := b.Path.getD i []

/-- Write slot `i` of a branch (`b.Path[i] = h`). -/
def setSlot (b : Branch) (i : Nat) (h : List Nat) : Branch :=
  ⟨b.Path.set i h, b.Value⟩

/-- The zero value `branch{}`: all 256 slots empty, nil `Value`. -/
def emptyBranch : Branch := ⟨List.replicate RADIX [], []⟩

/-- Longest common prefix length of two byte strings. -/
def lcp : List Nat → List Nat → Nat
  | a :: as, b :: bs => if a = b then lcp as bs + 1 else 0
  | _, _ => 0

/-- The byte stream `branch.hash` feeds to BLAKE2b-256: the loop
`for i := 0..255 { stream = append(stream, b.Path[i]...) }` followed by
`append(stream, b.Value...)`. -/
def branchStream (b : Branch) : List Nat :=
  ((List.range RADIX).foldl (fun stream i => stream ++ slot b i) []) ++ b.Value

/-- The byte stream `leaf.hash` feeds to BLAKE2b-256:
`append([]byte{l.Ext}, l.Path...)` then `append(stream, l.Value...)`. -/
def leafStream (l : Leaf) : List Nat :=
  (l.Ext :: l.Path) ++ l.Value

/-- `hash()` of a node, with the BLAKE2b-256 digest abstracted as `H`. -/
def nodeHash (H : List Nat → List Nat) : Node → List Nat
  | .branch b => H (branchStream b)
  | .leaf l => H (leafStream l)

/-- Spec-side wire encoding of a branch, following the spec's words:
"the concatenation of all 256 slots in index order followed by the
`Value` field". -/
def branchWire (b : Branch) : List Nat :=
  ((List.range RADIX).map (slot b)).flatten ++ b.Value

/-- Spec-side wire encoding of a leaf/extension, following the spec's words:
"the concatenation of the `Ext` tag, the path fragment, and the
value/child-hash". -/
def nodeWire : Node → List Nat
  | .branch b => branchWire b
  | .leaf l => [l.Ext] ++ l.Path ++ l.Value

theorem foldl_append_eq_flatten {α : Type} (f : α → List Nat) :
    ∀ (l : List α) (acc : List Nat),
      l.foldl (fun stream i => stream ++ f i) acc = acc ++ (l.map f).flatten
  | [], acc => by simp
  | i :: is, acc => by
    simp [List.foldl_cons, foldl_append_eq_flatten f is (acc ++ f i)]

/-- C1: `hash()` is the abstract digest applied to the node's wire encoding:
for a branch the concatenation of all 256 child slots in index order followed
by the `Value` field, for a leaf or extension the `Ext` tag byte followed by
the path fragment and the value (or child hash). -/
theorem nodeHash_eq_digest_of_wire (H : List Nat → List Nat) (n : Node) :
    nodeHash H n = H (nodeWire n) := by
  cases n with
  | branch b =>
    simp [nodeHash, nodeWire, branchStream, branchWire,
      foldl_append_eq_flatten (slot b) (List.range RADIX) []]
  | leaf l =>
    simp [nodeHash, nodeWire, leafStream]

/-- Go errors surfaced by `descend`: `ErrPathDiverge` from the leaf walk,
`ErrInvalidPatricia` (wrapped) from an empty branch slot. -/
inductive GoErr where
  | pathDiverge
  | invalidPatricia
deriving DecidableEq

/-- Result of `descend`: either a Go runtime panic (index out of range), or
the returned triple `([]byte, int, error)`. -/
inductive DescendResult where
  | panic
  | ret (next : Option (List Nat)) (consumed : Nat) (err : Option GoErr)
deriving DecidableEq

/-- The loop of `leaf.descend`: it reads `l.Path[match]` and `key[match]`
without bounds checks (reading off either end is a Go panic), and after each
increment returns `(l.Value, match, nil)` once `match == len(l.Path)`. -/
def descendLoop (value : List Nat) : List Nat → List Nat → Nat → DescendResult
  | [], _, _ => .panic
  | _ :: _, [], _ => .panic
  | p :: ps, c :: cs, m =>
    if p = c then
      if ps.isEmpty then .ret (some value) (m + 1) none
      else descendLoop value ps cs (m + 1)
    else .ret none m (some .pathDiverge)

/-- `leaf.descend(key)`. -/
def leafDescend (l : Leaf) (key : List Nat) : DescendResult :=
  descendLoop l.Value l.Path key 0

/-- Spec-side description of `leaf.descend` (section 4.2): with `m` the
longest common prefix of `node.Path` and `key`, success returning
`node.Value` and `consumed = m` when `m = len(node.Path)`, and a
divergence report with `consumed = m` otherwise. -/
def leafDescendSpec (l : Leaf) (key : List Nat) : DescendResult :=
  let m := lcp l.Path key
  if m = l.Path.length then .ret (some l.Value) m none
  else .ret none m (some .pathDiverge)

/-- `branch.descend(key)`: `node := b.Path[key[0]]` (a panic when the key is
empty); the slot when non-empty, otherwise `(nil, 0, ErrInvalidPatricia)`. -/
def branchDescend (b : Branch) (key : List Nat) : DescendResult :=
  match key with
  | [] => .panic
  | k0 :: _ =>
    let node := slot b k0
    if 0 < node.length then .ret (some node) 1 none
    else .ret none 0 (some .invalidPatricia)

theorem descendLoop_eq (value : List Nat) :
    ∀ (P key : List Nat) (m : Nat), P ≠ [] →
      (lcp P key = P.length ∨ lcp P key < key.length) →
      descendLoop value P key m =
        (if lcp P key = P.length then .ret (some value) (m + lcp P key) none
         else .ret none (m + lcp P key) (some .pathDiverge))
  | [], _, _, h, _ => absurd rfl h
  | p :: ps, [], m, _, hnp => by
    rcases hnp with h | h
    · simp [lcp] at h
    · simp at h
  | p :: ps, c :: cs, m, _, hnp => by
    by_cases hpc : p = c
    · subst hpc
      have hl : lcp (p :: ps) (p :: cs) = lcp ps cs + 1 := by simp [lcp]
      by_cases hps : ps = []
      · subst hps
        simp [descendLoop, lcp]
      · have hne : ps ≠ [] := hps
        have hnp2 : lcp ps cs = ps.length ∨ lcp ps cs < cs.length := by
          rcases hnp with h | h
          · left; rw [hl] at h; simpa using h
          · right; rw [hl] at h; simpa using h
        have ih := descendLoop_eq value ps cs (m + 1) hne hnp2
        have hEmpty : ps.isEmpty = false := by
          simpa [List.isEmpty_iff] using hne
        by_cases hfull : lcp ps cs = ps.length
        · simp only [descendLoop, if_pos rfl, hEmpty, Bool.false_eq_true, if_false, ih,
            if_pos hfull, hl, List.length_cons, hfull]
          simp [Nat.add_assoc, Nat.add_comm 1 (lcp ps cs)]
          omega
        · have hfull2 : ¬ lcp (p :: ps) (p :: cs) = (p :: ps).length := by
            rw [hl]; simpa using hfull
          simp only [descendLoop, if_pos rfl, hEmpty, Bool.false_eq_true, if_false, ih,
            if_neg hfull, if_neg hfull2, hl]
          simp [Nat.add_assoc, Nat.add_comm 1 (lcp ps cs)]
          rw [if_neg hfull]
    · have hz : lcp (p :: ps) (c :: cs) = 0 := by simp [lcp, hpc]
      have hne : ¬ lcp (p :: ps) (c :: cs) = (p :: ps).length := by simp [hz]
      simp [descendLoop, hpc, hz, hne]

/-- C6 (amended): when `node.Path` is non-empty and the walk does not run off
the key (`m = len(node.Path)` or `m < len(key)`), `leaf.descend` computes the
longest common prefix `m` of `node.Path` and `key`, succeeds with
`next_ref = node.Value` and `consumed = m` when `m = len(node.Path)`, and
reports divergence with `consumed = m` when `m < len(node.Path)`. -/
theorem leafDescend_eq_spec (l : Leaf) (key : List Nat)
    (hne : l.Path ≠ [])
    (hok : lcp l.Path key = l.Path.length ∨ lcp l.Path key < key.length) :
    leafDescend l key = leafDescendSpec l key := by
  have h := descendLoop_eq l.Value l.Path key 0 hne hok
  simp only [leafDescend, leafDescendSpec, h, Nat.zero_add]

/-- Witness for C6's amended theorem at a concrete leaf and key. -/
theorem leafDescend_eq_spec_witness :
    ((⟨0, [1, 2], [7]⟩ : Leaf).Path ≠ [] ∧
      (lcp (⟨0, [1, 2], [7]⟩ : Leaf).Path [1, 3] = 2 ∨
        lcp (⟨0, [1, 2], [7]⟩ : Leaf).Path [1, 3] < 2)) ∧
    leafDescend ⟨0, [1, 2], [7]⟩ [1, 3] = leafDescendSpec ⟨0, [1, 2], [7]⟩ [1, 3] :=
  ⟨⟨by decide, by decide⟩,
    leafDescend_eq_spec ⟨0, [1, 2], [7]⟩ [1, 3] (by decide) (by decide)⟩

/-- C6 (counterexample): on a leaf with empty path, the claim demands success
returning the value with `consumed = 0`, but the loop reads `l.Path[0]` out of
range — a Go panic. -/
theorem leafDescend_empty_path_panics :
    leafDescend ⟨0, [], [7]⟩ [0] = .panic ∧
      leafDescend ⟨0, [], [7]⟩ [0] ≠ .ret (some [7]) 0 none := by
  constructor
  · rfl
  · decide

/-- C7: on a branch with a non-empty key, `descend` returns the hash stored at
slot `key[0]` with `consumed = 1` when that slot is non-empty, and reports
divergence (an error, no next reference) with `consumed = 0` when the slot is
empty. -/
theorem branchDescend_characterization (b : Branch) (k0 : Nat) (ks : List Nat) :
    (slot b k0 ≠ [] → branchDescend b (k0 :: ks) = .ret (some (slot b k0)) 1 none) ∧
    (slot b k0 = [] → branchDescend b (k0 :: ks) = .ret none 0 (some .invalidPatricia)) := by
  constructor
  · intro h
    have hlen : 0 < (slot b k0).length := List.length_pos.mpr h
    simp [branchDescend, hlen]
  · intro h
    simp [branchDescend, h]

/-- Witness for C7 at a concrete branch (slot 2 holds `[8]`, slot 5 empty). -/
theorem branchDescend_characterization_witness :
    branchDescend (setSlot emptyBranch 2 [8]) [2] = .ret (some [8]) 1 none ∧
    branchDescend (setSlot emptyBranch 2 [8]) [5] = .ret none 0 (some .invalidPatricia) :=
  ⟨(branchDescend_characterization (setSlot emptyBranch 2 [8]) 2 []).1 (by decide),
    (branchDescend_characterization (setSlot emptyBranch 2 [8]) 5 []).2 (by decide)⟩

/-- `branch.trim(index)`: clear slot `index`. -/
def trim (b : Branch) (index : Nat) : Branch :=
  ⟨b.Path.set index [], b.Value⟩

/-- One iteration of the counting loop in `branch.collapse`: on a non-empty
slot it increments `nb` and overwrites `key = []byte{i}`, `value = b.Path[i]`. -/
def countStep (b : Branch) (acc : Nat × List Nat × List Nat) (i : Nat) :
    Nat × List Nat × List Nat :=
  if 0 < (slot b i).length then (acc.1 + 1, [i], slot b i) else acc

/-- The counting loop of `branch.collapse` over all 256 slots, starting from
`nb = 0`, `key = value = nil`. -/
def countLoop (b : Branch) : Nat × List Nat × List Nat :=
  (List.range RADIX).foldl (countStep b) (0, [], [])

/-- `branch.collapse(k, v, index, childClps)`.  The receiver may be mutated
(`trim`), so the result carries the updated branch alongside the returned
triple.  `k` and `v` are Go byte slices that may be `nil`. -/
def branchCollapse (b : Branch) (k v : Option (List Nat)) (index : Nat)
    (childClps : Bool) : Branch × Option (List Nat) × Option (List Nat) × Bool :=
  if childClps = false then (b, k, v, false)
  else
    let bk : Branch × Option (List Nat) :=
      if v = none then (trim b index, none) else (b, k)
    let r := countLoop bk.1
    if r.1 = 1 then (bk.1, some (r.2.1 ++ bk.2.getD []), some r.2.2, true)
    else (bk.1, bk.2, v, false)

/-- Indices (in slot order) of the non-empty slots of a branch. -/
def nonEmptySlots (b : Branch) : List Nat :=
  (List.range RADIX).filter (fun i => 0 < (slot b i).length)

/-- Spec-side description of `branch.collapse` as the code actually behaves:
nothing happens unless the child collapsed; on a deleted entry (`v = nil`)
the slot at `index` is trimmed and `k` becomes `nil`; if exactly one
non-empty slot `i` remains the branch collapses upward with key `i ++ k`
and that slot's value; otherwise the triple is returned unchanged and the
branch is not otherwise modified. -/
def collapseSpec (b : Branch) (k v : Option (List Nat)) (index : Nat)
    (childClps : Bool) : Branch × Option (List Nat) × Option (List Nat) × Bool :=
  if childClps = false then (b, k, v, false)
  else
    let b1 := if v = none then trim b index else b
    let k1 := if v = none then none else k
    match nonEmptySlots b1 with
    | [i] => (b1, some (i :: k1.getD []), some (slot b1 i), true)
    | _ => (b1, k1, v, false)

theorem foldl_countStep_eq (b : Branch) (l : List Nat) :
    ∀ acc : Nat × List Nat × List Nat,
      l.foldl (countStep b) acc =
        ((l.filter (fun i => 0 < (slot b i).length)).length + acc.1,
          match (l.filter (fun i => 0 < (slot b i).length)).getLast? with
          | none => acc.2
          | some i => ([i], slot b i)) := by
  induction l using List.reverseRecOn with
  | nil => intro acc; simp
  | append_singleton xs x ih =>
    intro acc
    rw [List.foldl_append, ih acc, List.filter_append]
    by_cases hx : 0 < (slot b x).length
    · simp [List.foldl_cons, countStep, hx, List.getLast?_append]
      omega
    · simp only [List.foldl_cons, List.foldl_nil, countStep, hx, if_false,
        List.filter_cons, List.filter_nil, decide_eq_true_eq]
      simp [hx]

theorem countLoop_eq (b : Branch) :
    countLoop b =
      ((nonEmptySlots b).length,
        match (nonEmptySlots b).getLast? with
        | none => ([], [])
        | some i => ([i], slot b i)) := by
  rw [countLoop, foldl_countStep_eq b (List.range RADIX) (0, [], [])]
  rfl

/-- C2 (amended): `branch.collapse` behaves as `collapseSpec` describes —
in particular, when `v = nil` the returned key is `nil` (not the incoming
`k`), and in the non-collapsing case the branch is returned with no slot
update (the caller performs the slot update via `ascend`). -/
theorem branchCollapse_eq_spec (b : Branch) (k v : Option (List Nat))
    (index : Nat) (childClps : Bool) :
    branchCollapse b k v index childClps = collapseSpec b k v index childClps := by
  cases childClps with
  | false => rfl
  | true =>
    simp only [branchCollapse, collapseSpec, Bool.true_eq_false, if_false]
    set b1 := if v = none then trim b index else b with hb1
    set k1 : Option (List Nat) := if v = none then none else k with hk1
    have hbk : (if v = none then (trim b index, (none : Option (List Nat))) else (b, k)) =
        (b1, k1) := by
      by_cases hv : v = none <;> simp [hv, hb1, hk1]
    rw [hbk, countLoop_eq b1]
    rcases hslots : nonEmptySlots b1 with _ | ⟨i, rest⟩
    · simp
    · rcases rest with _ | ⟨j, rest2⟩
      · simp
      · simp [List.getLast?_cons_cons]

/-- C2 (counterexample): with two other slots occupied, `v = nil`,
`childCollapsed = true`, the code trims, sets `k` to `nil`, and returns
`(nil, nil, false)` with the branch otherwise untouched — not `(k, v, false)`
with the slot at `index` updated to a child hash, as the claim states. -/
theorem branchCollapse_claim_false :
    branchCollapse (setSlot (setSlot emptyBranch 2 [8]) 3 [9]) (some [5]) none 1 true =
      (setSlot (setSlot emptyBranch 2 [8]) 3 [9], none, none, false) ∧
    (some [5] : Option (List Nat)) ≠ none ∧
    slot (setSlot (setSlot emptyBranch 2 [8]) 3 [9]) 1 = [] := by
  refine ⟨?_, by decide, by decide⟩
  decide

/-- Outcomes of `leaf.insert`: a Go runtime panic (the unbounded match loop
running off an array), the `ErrInvalidPatricia` wrap sites — total-match guard
and the extension-of-length-one guard — or success. -/
inductive PErr where
  | panic
  | totalMatch
  | extPathLen1
deriving DecidableEq

/-- Result of `insert`: an error/panic, or the resulting traversal stack
(front of the Go `list.List` first). -/
inductive InsResult where
  | ok : List Node → InsResult
  | err : PErr → InsResult
deriving DecidableEq

/-- The matching loop of `leaf.insert`:
`for l.Path[match] == k[match] { match++ }`.  It reads both arrays without
bounds checks, so it terminates normally only at the first mismatch and
panics (`none`) when either string is exhausted first. -/
def insertMatchLoop : List Nat → List Nat → Nat → Option Nat
  | [], _, _ => none
  | _ :: _, [], _ => none
  | p :: ps, c :: cs, m => if p = c then insertMatchLoop ps cs (m + 1) else some m

/-- `leaf.split(match, k, v, stack)` — `k` here is already `k[match:]` as
passed by `insert`.  Pushes (back) the linking branch, the helper node for
the diverging part of the extension (a branch for `len(divPath) == 2`, an
extension for the `default` case, nothing for length 1), and the new leaf. -/
def leafSplit (H : List Nat → List Nat) (l : Leaf) (m : Nat) (k v : List Nat)
    (stack : List Node) : List Node :=
  let divPath := l.Path.drop m
  let l1 : Leaf := ⟨0, k.drop 1, v⟩
  let hashl := H (leafStream l1)
  let b0 := setSlot emptyBranch (k.getD 0 0) hashl
  let bn : Branch × List Node :=
    if divPath.length = 1 then
      (setSlot b0 (divPath.getD 0 0) l.Value, [])
    else if divPath.length = 2 then
      let b1 := setSlot emptyBranch (divPath.getD 1 0) l.Value
      (setSlot b0 (divPath.getD 0 0) (H (branchStream b1)), [Node.branch b1])
    else
      let e : Leaf := ⟨1, divPath.drop 1, l.Value⟩
      (setSlot b0 (divPath.getD 0 0) (H (leafStream e)), [Node.leaf e])
  (stack ++ [Node.branch bn.1]) ++ bn.2 ++ [Node.leaf l1]

/-- `leaf.insert(k, v, stack)` (covering both leaves and extensions).  The
match loop may panic; the total-match guard returns `ErrInvalidPatricia`;
an extension splits via `leaf.split` and then pushes the top node (branch
for `match == 1`, extension `l.Path[:match]` for `match > 1`) whose value is
the hash of the front of the stack after the split; a plain leaf pushes the
two leaves and the linking branch, plus an extension over `k[:match]` when
`match > 0`. -/
def leafInsert (H : List Nat → List Nat) (l : Leaf) (k v : List Nat)
    (stack : List Node) : InsResult :=
  match insertMatchLoop l.Path k 0 with
  | none => .err .panic
  | some m =>
    if m = l.Path.length then .err .totalMatch
    else if l.Ext = 1 then
      if l.Path.length = 1 then .err .extPathLen1
      else
        let stack1 := leafSplit H l m (k.drop m) v stack
        match stack1.head? with
        | none => .err .panic
        | some front =>
          let hash := nodeHash H front
          if m = 1 then
            .ok (Node.branch (setSlot emptyBranch (l.Path.getD 0 0) hash) :: stack1)
          else if 1 < m then
            .ok (Node.leaf ⟨1, l.Path.take m, hash⟩ :: stack1)
          else .ok stack1
    else
      let l1 : Leaf := ⟨0, l.Path.drop (m + 1), l.Value⟩
      let l2 : Leaf := ⟨0, k.drop (m + 1), v⟩
      let b := setSlot (setSlot emptyBranch (l.Path.getD m 0) (H (leafStream l1)))
        (k.getD m 0) (H (leafStream l2))
      let stack1 := stack ++ [Node.branch b, Node.leaf l1, Node.leaf l2]
      if 0 < m then
        .ok (Node.leaf ⟨1, k.take m, H (branchStream b)⟩ :: stack1)
      else .ok stack1

theorem lcp_le_left : ∀ (a b : List Nat), lcp a b ≤ a.length
  | [], _ => by simp [lcp]
  | _ :: _, [] => by simp [lcp]
  | x :: xs, y :: ys => by
    by_cases h : x = y
    · simpa [lcp, h] using lcp_le_left xs ys
    · simp [lcp, h]

theorem lcp_le_right : ∀ (a b : List Nat), lcp a b ≤ b.length
  | [], _ => by simp [lcp]
  | _ :: _, [] => by simp [lcp]
  | x :: xs, y :: ys => by
    by_cases h : x = y
    · simpa [lcp, h] using lcp_le_right xs ys
    · simp [lcp, h]

theorem insertMatchLoop_eq :
    ∀ (P K : List Nat) (m : Nat),
      insertMatchLoop P K m =
        (if lcp P K = min P.length K.length then none else some (m + lcp P K))
  | [], K, m => by simp [insertMatchLoop, lcp]
  | p :: ps, [], m => by simp [insertMatchLoop, lcp]
  | p :: ps, c :: cs, m => by
    by_cases h : p = c
    · have ih := insertMatchLoop_eq ps cs (m + 1)
      simp only [insertMatchLoop, if_pos h, ih, lcp, h, if_pos rfl,
        List.length_cons, Nat.succ_min_succ]
      by_cases h2 : lcp ps cs = min ps.length cs.length
      · simp [h2]
      · have : ¬ lcp ps cs + 1 = min ps.length cs.length + 1 := by omega
        simp [h2, this]
        omega
    · have hz : lcp (p :: ps) (c :: cs) = 0 := by simp [lcp, h]
      have hm : ¬ (0 : Nat) = min (ps.length + 1) (cs.length + 1) := by omega
      simp [insertMatchLoop, h, hz, hm]

theorem insertMatchLoop_of_lt {P K : List Nat} (h1 : lcp P K < P.length)
    (h2 : lcp P K < K.length) :
    insertMatchLoop P K 0 = some (lcp P K) := by
  rw [insertMatchLoop_eq]
  have : ¬ lcp P K = min P.length K.length := by omega
  simp [this]

theorem lcp_append_self : ∀ (P t : List Nat), lcp P (P ++ t) = P.length
  | [], t => by cases t <;> simp [lcp]
  | p :: ps, t => by simp [lcp, lcp_append_self ps t]

/-- C10: the match loop of `leaf.insert` never bounds `match` by
`len(l.Path)`, so whenever the node's entire `Path` is a prefix of the
inserted key tail the loop indexes `l.Path` out of range (a Go panic), and
consequently the guard returning `ErrInvalidPatricia` on `match ==
len(l.Path)` is unreachable: `insert` never returns that error. -/
theorem leafInsert_prefix_panics (H : List Nat → List Nat) (l : Leaf)
    (k v : List Nat) (st : List Node) :
    ((∃ t, l.Path ++ t = k) → leafInsert H l k v st = .err .panic) ∧
    leafInsert H l k v st ≠ .err .totalMatch := by
  constructor
  · rintro ⟨t, rfl⟩
    have hfull : lcp l.Path (l.Path ++ t) = min l.Path.length (l.Path ++ t).length := by
      rw [lcp_append_self]
      simp
    simp [leafInsert, insertMatchLoop_eq, hfull]
  · intro hc
    unfold leafInsert at hc
    rw [insertMatchLoop_eq] at hc
    by_cases hmin : lcp l.Path k = min l.Path.length k.length
    · simp [hmin] at hc
    · have hlt : lcp l.Path k < l.Path.length := by
        have h1 := lcp_le_left l.Path k
        have h2 := lcp_le_right l.Path k
        omega
      rw [if_neg hmin] at hc
      simp only [Nat.zero_add] at hc
      rw [if_neg (by omega : ¬ lcp l.Path k = l.Path.length)] at hc
      repeat' split at hc
      all_goals simp_all

/-- Witness for C10 at a concrete extension whose path `[1, 2]` is a prefix
of the key tail `[1, 2, 3]`. -/
theorem leafInsert_prefix_panics_witness :
    leafInsert (fun s => [s.length]) ⟨1, [1, 2], [0]⟩ [1, 2, 3] [9] [] = .err .panic ∧
    leafInsert (fun s => [s.length]) ⟨1, [1, 2], [0]⟩ [1, 2, 3] [9] [] ≠ .err .totalMatch :=
  ⟨(leafInsert_prefix_panics (fun s => [s.length]) ⟨1, [1, 2], [0]⟩ [1, 2, 3] [9] []).1
      ⟨[3], rfl⟩,
    (leafInsert_prefix_panics (fun s => [s.length]) ⟨1, [1, 2], [0]⟩ [1, 2, 3] [9] []).2⟩

/-- Spec-side replacement stack for inserting `(k, v)` at a plain leaf
(section 4.3): two leaves `L1 = (node.Path[m+1:], node.Value)` and
`L2 = (k[m+1:], v)`, a branch `B` with slot `node.Path[m]` holding the hash of
`L1` and slot `k[m]` holding the hash of `L2`, preceded (root-first) by an
extension `(k[:m], hash(B))` when `m > 0`. -/
def leafInsertSpec (H : List Nat → List Nat) (l : Leaf) (k v : List Nat) :
    List Node :=
  let m := lcp l.Path k
  let L1 : Leaf := ⟨0, l.Path.drop (m + 1), l.Value⟩
  let L2 : Leaf := ⟨0, k.drop (m + 1), v⟩
  let B := setSlot (setSlot emptyBranch (l.Path.getD m 0) (H (leafStream L1)))
    (k.getD m 0) (H (leafStream L2))
  (if 0 < m then [Node.leaf ⟨1, k.take m, H (branchStream B)⟩] else []) ++
    [Node.branch B, Node.leaf L1, Node.leaf L2]

/-- C5: inserting `(k, v)` at a leaf (`Ext = 0`) with longest common prefix
`m` (a genuine divergence: `m` below both lengths) produces, root-first, the
optional extension `(k[:m], hash(B))` (present iff `m > 0`), the branch `B`
linking the two leaves through slots `node.Path[m]` and `k[m]`, then
`L1 = (node.Path[m+1:], node.Value)` and `L2 = (k[m+1:], v)`. -/
theorem leafInsert_leaf_eq_spec (H : List Nat → List Nat) (l : Leaf)
    (k v : List Nat) (hE : l.Ext = 0)
    (h3 : lcp l.Path k < l.Path.length) (h4 : lcp l.Path k < k.length) :
    leafInsert H l k v [] = .ok (leafInsertSpec H l k v) := by
  unfold leafInsert leafInsertSpec
  rw [insertMatchLoop_of_lt h3 h4]
  have hne : ¬ lcp l.Path k = l.Path.length := by omega
  have hext : ¬ l.Ext = 1 := by rw [hE]; decide
  dsimp only
  rw [if_neg hne, if_neg hext]
  by_cases hm : 0 < lcp l.Path k
  · simp [hm]
  · simp [hm]

/-- Witness for C5 at a concrete leaf and key diverging after one byte. -/
theorem leafInsert_leaf_eq_spec_witness :
    ((⟨0, [7, 1, 2], [3]⟩ : Leaf).Ext = 0 ∧
      lcp (⟨0, [7, 1, 2], [3]⟩ : Leaf).Path [7, 9, 2] < 3 ∧
      lcp (⟨0, [7, 1, 2], [3]⟩ : Leaf).Path [7, 9, 2] < 3) ∧
    leafInsert (fun s => [s.length]) ⟨0, [7, 1, 2], [3]⟩ [7, 9, 2] [4] [] =
      .ok (leafInsertSpec (fun s => [s.length]) ⟨0, [7, 1, 2], [3]⟩ [7, 9, 2] [4]) :=
  ⟨⟨rfl, by decide, by decide⟩,
    leafInsert_leaf_eq_spec (fun s => [s.length]) ⟨0, [7, 1, 2], [3]⟩ [7, 9, 2] [4]
      rfl (by decide) (by decide)⟩

theorem dropGetD : ∀ (k : List Nat) (m d : Nat), (k.drop m).getD 0 d = k.getD m d
  | _, 0, _ => rfl
  | [], _ + 1, _ => rfl
  | _ :: cs, m + 1, d => by
    simp only [List.drop_succ_cons, List.getD_cons_succ]
    exact dropGetD cs m d

theorem dropDropOne (k : List Nat) (m : Nat) : (k.drop m).drop 1 = k.drop (m + 1) := by
  rw [List.drop_drop, Nat.add_comm]

/-- Spec-side replacement stack for inserting `(k, v)` at an extension
(section 4.3): with `m` the longest common prefix and
`divPath = node.Path[m:]`, the new leaf `L = (k[m+1:], v)` hangs off branch
`B` at slot `k[m]`; the other side of `B` is `node.Value` directly when
`len(divPath) = 1`, a helper branch `B1` with `B1[divPath[1]] = node.Value`
when `len(divPath) = 2`, and a helper extension `(divPath[1:], node.Value)`
otherwise; on top (root-first) a branch `B_top` with
`B_top[node.Path[0]] = hash(B)` when `m = 1`, or an extension
`(node.Path[:m], hash(B))` when `m > 1`. -/
def extInsertSpec (H : List Nat → List Nat) (l : Leaf) (k v : List Nat) :
    List Node :=
  let m := lcp l.Path k
  let divPath := l.Path.drop m
  let L : Leaf := ⟨0, k.drop (m + 1), v⟩
  let filled : Branch × List Node :=
    if divPath.length = 1 then
      (setSlot (setSlot emptyBranch (k.getD m 0) (H (leafStream L)))
        (divPath.getD 0 0) l.Value, [])
    else if divPath.length = 2 then
      let B1 := setSlot emptyBranch (divPath.getD 1 0) l.Value
      (setSlot (setSlot emptyBranch (k.getD m 0) (H (leafStream L)))
        (divPath.getD 0 0) (H (branchStream B1)), [Node.branch B1])
    else
      let E : Leaf := ⟨1, divPath.drop 1, l.Value⟩
      (setSlot (setSlot emptyBranch (k.getD m 0) (H (leafStream L)))
        (divPath.getD 0 0) (H (leafStream E)), [Node.leaf E])
  let B := filled.1
  let top : List Node :=
    if m = 1 then
      [Node.branch (setSlot emptyBranch (l.Path.getD 0 0) (H (branchStream B)))]
    else if 1 < m then [Node.leaf ⟨1, l.Path.take m, H (branchStream B)⟩]
    else []
  top ++ [Node.branch B] ++ filled.2 ++ [Node.leaf L]

/-- C4: inserting `(k, v)` at an extension (`Ext = 1`, path length at least 2)
with a genuine divergence (`m` below both lengths) yields exactly the
spec-side stack `extInsertSpec`: the `divPath`-directed filling of branch `B`
(`node.Value` directly, helper branch `B1`, or helper extension
`(divPath[1:], node.Value)`), and at the front a branch `B_top` with
`B_top[node.Path[0]] = hash(B)` when `m = 1` or an extension
`(node.Path[:m], hash(B))` when `m > 1`. -/
theorem leafInsert_ext_eq_spec (H : List Nat → List Nat) (l : Leaf)
    (k v : List Nat) (hE : l.Ext = 1) (hlen : 2 ≤ l.Path.length)
    (h3 : lcp l.Path k < l.Path.length) (h4 : lcp l.Path k < k.length) :
    leafInsert H l k v [] = .ok (extInsertSpec H l k v) := by
  unfold leafInsert
  rw [insertMatchLoop_of_lt h3 h4]
  dsimp only
  rw [if_neg (by omega : ¬ lcp l.Path k = l.Path.length), if_pos hE,
    if_neg (by omega : ¬ l.Path.length = 1)]
  unfold leafSplit extInsertSpec
  dsimp only
  by_cases hd1 : (l.Path.drop (lcp l.Path k)).length = 1 <;>
    by_cases hd2 : (l.Path.drop (lcp l.Path k)).length = 2 <;>
    by_cases hm1 : lcp l.Path k = 1 <;>
    by_cases hm2 : 1 < lcp l.Path k
  all_goals try exact absurd hd2 (by omega)
  all_goals
    simp only [hd1, hd2, hm1, hm2, if_true, if_false, List.nil_append,
      List.singleton_append, List.head?_cons, nodeHash, dropGetD, dropDropOne,
      List.cons_append, List.append_assoc]

/-- Witness for C4 at a concrete extension of path length 5 diverging after
two bytes (the helper-extension and top-extension cases). -/
theorem leafInsert_ext_eq_spec_witness :
    ((⟨1, [1, 2, 3, 4, 5], [6]⟩ : Leaf).Ext = 1 ∧
      2 ≤ (⟨1, [1, 2, 3, 4, 5], [6]⟩ : Leaf).Path.length ∧
      lcp (⟨1, [1, 2, 3, 4, 5], [6]⟩ : Leaf).Path [1, 2, 9, 9, 9] < 5 ∧
      lcp (⟨1, [1, 2, 3, 4, 5], [6]⟩ : Leaf).Path [1, 2, 9, 9, 9] < 5) ∧
    leafInsert (fun s => [s.length]) ⟨1, [1, 2, 3, 4, 5], [6]⟩ [1, 2, 9, 9, 9] [7] [] =
      .ok (extInsertSpec (fun s => [s.length]) ⟨1, [1, 2, 3, 4, 5], [6]⟩ [1, 2, 9, 9, 9] [7]) :=
  ⟨⟨rfl, by decide, by decide, by decide⟩,
    leafInsert_ext_eq_spec (fun s => [s.length]) ⟨1, [1, 2, 3, 4, 5], [6]⟩
      [1, 2, 9, 9, 9] [7] rfl (by decide) (by decide) (by decide)⟩

/-- C3 (code defect, with `H s = [s.length]` as digest stand-in): inserting
`(0xAA01, v)` at the leaf `(path 0xAA00, value [1])` has longest common
prefix `m = 1 > 0`, so `leaf.insert` pushes the extension `(k[:1], hash(B))`
— an extension of path length 1, although the code's own guard in the same
function rejects extensions of path length 1 ("ext should not have path
length = 1") and the documented invariant requires length at least 2. -/
theorem leafInsert_creates_length_one_extension :
    leafInsert (fun s => [s.length]) ⟨0, [170, 0], [1]⟩ [170, 1] [2] [] =
      .ok [Node.leaf ⟨1, [170], [2]⟩,
        Node.branch (setSlot (setSlot emptyBranch 0 [2]) 1 [2]),
        Node.leaf ⟨0, [], [1]⟩, Node.leaf ⟨0, [], [2]⟩] ∧
    (Leaf.mk 1 [170] [2]).Ext = 1 ∧ (Leaf.mk 1 [170] [2]).Path.length = 1 := by
  refine ⟨?_, rfl, rfl⟩
  decide

/-- Result of `deserialize`: a Go panic (slicing an empty stream), a decoded
node, or a decoding error from the structural decoder. -/
inductive DeserRes (α : Type) where
  | panic
  | ok : α → DeserRes α
  | malformed
deriving DecidableEq

/-- Length-prefixed encoding of one byte string. -/
def encChunk (c : List Nat) : List Nat := c.length :: c

/-- Modelled from the spec: the body encoding produced by Go's
`encoding/gob` is external to the repository; the spec only requires "a
stable structural encoder" whose decoding reconstructs the node
unambiguously.  It is modelled as the length-prefixed concatenation of the
struct's byte-string fields. -/
def gobEncodeBranch (b : Branch) : List Nat :=
  ((List.range RADIX).map (fun i => encChunk (slot b i))).flatten ++ encChunk b.Value

/-- Modelled from the spec: stable structural encoding of a leaf's fields
(`Ext`, `Path`, `Value`). -/
def gobEncodeLeaf (l : Leaf) : List Nat :=
  l.Ext :: (encChunk l.Path ++ encChunk l.Value)

/-- Read one length-prefixed byte string, returning it and the remainder. -/
def readChunk : List Nat → Option (List Nat × List Nat)
  | [] => none
  | n :: rest => if n ≤ rest.length then some (rest.take n, rest.drop n) else none

/-- Read `n` length-prefixed byte strings. -/
def readChunks : Nat → List Nat → Option (List (List Nat) × List Nat)
  | 0, s => some ([], s)
  | n + 1, s =>
    match readChunk s with
    | none => none
    | some (c, rest) =>
      match readChunks n rest with
      | none => none
      | some (cs, rest2) => some (c :: cs, rest2)

/-- Modelled from the spec: decoder matching `gobEncodeBranch`. -/
def gobDecodeBranch (s : List Nat) : Option Branch :=
  match readChunks RADIX s with
  | none => none
  | some (slots, rest) =>
    match readChunk rest with
    | none => none
    | some (v, _) => some ⟨slots, v⟩

/-- Modelled from the spec: decoder matching `gobEncodeLeaf`. -/
def gobDecodeLeaf (s : List Nat) : Option Leaf :=
  match s with
  | [] => none
  | e :: rest =>
    match readChunk rest with
    | none => none
    | some (p, rest2) =>
      match readChunk rest2 with
      | none => none
      | some (v, _) => some ⟨e, p, v⟩

/-- `branch.serialize()`: type tag `2` prepended to the encoded body. -/
def branchSerialize (b : Branch) : List Nat := 2 :: gobEncodeBranch b

/-- `leaf.serialize()`: the first byte is `l.Ext` (0 for a leaf, 1 for an
extension), followed by the encoded body. -/
def leafSerialize (l : Leaf) : List Nat := l.Ext :: gobEncodeLeaf l

/-- `serialize()` of a node. -/
def nodeSerialize : Node → List Nat
  | .branch b => branchSerialize b
  | .leaf l => leafSerialize l

/-- `branch.deserialize(stream)`: resets the receiver and decodes
`stream[1:]` — the leading byte is skipped without ever being inspected
(slicing an empty stream is a Go panic). -/
def branchDeserialize (stream : List Nat) : DeserRes Branch :=
  match stream with
  | [] => .panic
  | _ :: rest =>
    match gobDecodeBranch rest with
    | some b => .ok b
    | none => .malformed

/-- `leaf.deserialize(stream)`: resets the receiver and decodes `stream[1:]`;
the leading byte is never inspected. -/
def leafDeserialize (stream : List Nat) : DeserRes Leaf :=
  match stream with
  | [] => .panic
  | _ :: rest =>
    match gobDecodeLeaf rest with
    | some l => .ok l
    | none => .malformed

theorem readChunk_encChunk (c rest : List Nat) :
    readChunk (encChunk c ++ rest) = some (c, rest) := by
  simp [encChunk, readChunk]

theorem readChunk_encChunk_self (c : List Nat) :
    readChunk (encChunk c) = some (c, []) := by
  simp [encChunk, readChunk]

theorem readChunks_encoded :
    ∀ (cs : List (List Nat)) (rest : List Nat),
      readChunks cs.length ((cs.map encChunk).flatten ++ rest) = some (cs, rest)
  | [], rest => by simp [readChunks]
  | c :: cs, rest => by
    have ih := readChunks_encoded cs rest
    simp only [List.map_cons, List.flatten_cons, List.length_cons, readChunks,
      List.append_assoc, readChunk_encChunk, ih]

theorem map_getD_range {α : Type} (d : α) :
    ∀ l : List α, (List.range l.length).map (fun i => l.getD i d) = l := by
  intro l
  apply List.ext_getElem
  · simp
  · intro i h1 h2
    simp [List.getD_eq_getElem?_getD, List.getElem?_eq_getElem h2]

/-- C8: `deserialize` applied to the bytes of `serialize` restores the node
(for a branch, one whose `Path` array has its 256 slots), and serialization
is deterministic: equal nodes produce byte-identical encodings. -/
theorem serialize_roundtrip :
    (∀ b : Branch, b.Path.length = RADIX →
      branchDeserialize (branchSerialize b) = .ok b) ∧
    (∀ l : Leaf, leafDeserialize (leafSerialize l) = .ok l) ∧
    (∀ n m : Node, n = m → nodeSerialize n = nodeSerialize m) := by
  refine ⟨?_, ?_, ?_⟩
  · intro b hb
    have hmap : (List.range RADIX).map (fun i => encChunk (slot b i)) =
        b.Path.map encChunk := by
      have h1 : (List.range RADIX).map (fun i => encChunk (slot b i)) =
          ((List.range RADIX).map (fun i => b.Path.getD i [])).map encChunk := by
        simp [slot, Function.comp]
      rw [h1, ← hb, map_getD_range]
    simp only [branchDeserialize, branchSerialize, gobEncodeBranch, gobDecodeBranch, hmap]
    rw [← hb, readChunks_encoded b.Path (encChunk b.Value)]
    simp [readChunk_encChunk_self]
  · intro l
    simp [leafDeserialize, leafSerialize, gobEncodeLeaf, gobDecodeLeaf,
      readChunk_encChunk, readChunk_encChunk_self]
  · intro n m h
    rw [h]

/-- Witness for C8 at a concrete branch (the empty branch) and leaf. -/
theorem serialize_roundtrip_witness :
    (emptyBranch.Path.length = RADIX ∧
      branchDeserialize (branchSerialize emptyBranch) = .ok emptyBranch) ∧
    leafDeserialize (leafSerialize ⟨1, [3], [4]⟩) = .ok ⟨1, [3], [4]⟩ ∧
    nodeSerialize (Node.leaf ⟨1, [3], [4]⟩) = nodeSerialize (Node.leaf ⟨1, [3], [4]⟩) :=
  ⟨⟨by decide, serialize_roundtrip.1 emptyBranch (by decide)⟩,
    serialize_roundtrip.2.1 ⟨1, [3], [4]⟩,
    serialize_roundtrip.2.2 (Node.leaf ⟨1, [3], [4]⟩) (Node.leaf ⟨1, [3], [4]⟩) rfl⟩

/-- C9 (amended): `deserialize` never inspects the leading type-tag byte —
it decodes `stream[1:]`, succeeding whenever the remainder decodes and
failing (Malformed) exactly when it does not; an unknown tag with a
well-formed remainder is accepted. -/
theorem deserialize_ignores_tag (t1 t2 : Nat) (s : List Nat) :
    (branchDeserialize (t1 :: s) = branchDeserialize (t2 :: s) ∧
      leafDeserialize (t1 :: s) = leafDeserialize (t2 :: s)) ∧
    (branchDeserialize (t1 :: s) =
      match gobDecodeBranch s with
      | some b => .ok b
      | none => .malformed) ∧
    (leafDeserialize (t1 :: s) =
      match gobDecodeLeaf s with
      | some l => .ok l
      | none => .malformed) := by
  exact ⟨⟨rfl, rfl⟩, rfl, rfl⟩

/-- C9 (counterexample): `99` is not a valid type tag (`0`, `1`, `2`), yet
`deserialize` on `99` followed by a well-formed branch body succeeds instead
of returning an error. -/
theorem deserialize_bad_tag_succeeds :
    branchDeserialize (99 :: gobEncodeBranch emptyBranch) = .ok emptyBranch ∧
    (99 ≠ 0 ∧ 99 ≠ 1 ∧ 99 ≠ 2) := by
  refine ⟨?_, by decide, by decide, by decide⟩
  decide

end Patricia
